import Mathlib

/-!
Verification of the k-mer content checker (`src/kmer.rs`, `src/kmer_iterator.rs`,
`src/main.rs`).

Shallow embedding conventions:
* Machine integers (`u8`/`u16`/.../`u128`) are modelled as `Nat` together with an
  explicit bit width `w` (`w = 8 * size_of::<Integer>()`); truncating operations
  carry an explicit `% 2 ^ w`.
* `x << s` on a `w`-bit integer discards high bits, hence `(x * 2 ^ s) % 2 ^ w`;
  a shift whose amount `s` is `≥ w` is an arithmetic-overflow defect in the
  source language (debug builds abort there), modelled as `Option.none`.
* `x >> 2` is `x / 4`, `x & 3` is `x % 4`.
* `x | y` where the operands occupy disjoint bit ranges is modelled as `x + y`;
  every such use is noted where it appears.
* Fallible constructors (`from_iter`, which aborts on bad input) return `Except`.
-/

/-- DNA byte codes: A = 65, C = 67, G = 71, T = 84. -/
def isDnaB (c : Nat) : Bool :=
  c == 65 || c == 67 || c == 71 || c == 84

/-- The 2-bit encoding of a DNA byte (`kmer.rs` `match character`): A=0, C=1, G=2, T=3.
The source aborts on any other byte; callers below either validate first
(`fixedFromIter`, `vectorFromIter`) or only ever pass DNA bytes (the stream
parser's window). The default value for non-DNA bytes is never reached there. -/
def charToDigit (c : Nat) : Nat :=
  if c = 65 then 0 else if c = 67 then 1 else if c = 71 then 2 else if c = 84 then 3 else 0

/-- The inverse table `CHARACTERS` of `Display` (`kmer.rs`): 0→A, 1→C, 2→G, 3→T. -/
def digitToChar (d : Nat) : Nat :=
  if d = 0 then 65 else if d = 1 then 67 else if d = 2 then 71 else 84

/-- Big-endian base-`b` packing, the `fold` of `BitPackedKmer::from_iter`:
`result = result << 2 | bits` is `4 * result + bits` (the shifted value has its
low two bits clear, so the bit-or is addition). Generic in the base so the same
development also covers the 2-bit-at-a-time vector packing. -/
def packB (b : Nat) (l : List Nat) : Nat :=
  l.foldl (fun r d => b * r + d) 0

/-- Packing a window of DNA bytes (composition of the byte table and the fold). -/
def packBytes (s : List Nat) : Nat :=
  packB 4 (s.map charToDigit)

/-- The failure conditions of k-mer construction: a non-ACGT byte inside the
fold, a window whose length differs from `K` (the `assert_eq!(K, size.0)`), and
a backing integer too narrow for `2K` bits (the `assert!(2 * K <= 8 * size_of)`). -/
inductive KmerError where
  | invalidCharacter
  | sizeMismatch
  | widthOverflow
deriving DecidableEq, Repr

/-- Decidable equality of fallible results, so that concrete runs can be
checked by evaluation. -/
instance {ε α : Type} [DecidableEq ε] [DecidableEq α] : DecidableEq (Except ε α) := fun a b =>
  match a, b with
  | .ok x, .ok y =>
      match decEq x y with
      | isTrue h => isTrue (by rw [h])
      | isFalse h => isFalse (by intro hc; cases hc; exact h rfl)
  | .error x, .error y =>
      match decEq x y with
      | isTrue h => isTrue (by rw [h])
      | isFalse h => isFalse (by intro hc; cases hc; exact h rfl)
  | .ok _, .error _ => isFalse (by intro hc; cases hc)
  | .error _, .ok _ => isFalse (by intro hc; cases hc)

/-- The validating fold of `BitPackedKmer::from_iter`: aborts at the first
non-DNA byte, otherwise shifts each 2-bit code in from the right. -/
def packDna (acc : Nat) : List Nat → Except KmerError Nat
  | [] => .ok acc
  | c :: cs => if isDnaB c then packDna (4 * acc + charToDigit c) cs else .error .invalidCharacter

/-- `BitPackedKmer::<K, Integer>::from_iter` with `w = 8 * size_of::<Integer>()`:
checks `2K ≤ w`, then the window length, then folds the bytes. -/
def fixedFromIter (k w : Nat) (s : List Nat) : Except KmerError Nat :=
  if 2 * k ≤ w then
    if s.length = k then packDna 0 s else .error .sizeMismatch
  else .error .widthOverflow

/-- The validating fold of `BitPackedVectorKmer::from_iter`: pushes
`bits & 2 != 0` then `bits & 1 != 0` per byte. There is no length check. -/
def packBits (acc : List Bool) : List Nat → Except KmerError (List Bool)
  | [] => .ok acc
  | c :: cs =>
      if isDnaB c then
        packBits (acc ++ [(charToDigit c).testBit 1, (charToDigit c).testBit 0]) cs
      else .error .invalidCharacter

/-- `BitPackedVectorKmer::from_iter`. -/
def vectorFromIter (s : List Nat) : Except KmerError (List Bool) :=
  packBits [] s

/-- The bit-sequence image of a digit list: two bits per base, high bit first,
as pushed by `BitPackedVectorKmer::from_iter`. -/
def toBits (ds : List Nat) : List Bool :=
  (ds.map (fun d => [d.testBit 1, d.testBit 0])).flatten

/-- One round of the `Display` loop for `BitPackedKmer` (`kmer.rs`): take the top
two bits (`(current & mask) >> mask_shift` with the mask at the top of the word,
i.e. `current / 2 ^ (w - 2)`), emit the character, shift `current` left by two
(discarding high bits). -/
def displayLoop (w : Nat) : Nat → Nat → List Nat
  | 0, _ => []
  | j + 1, current => digitToChar (current / 2 ^ (w - 2)) :: displayLoop w j (current * 4 % 2 ^ w)

/-- `Display for BitPackedKmer` (`encode_to_string`): start from
`kmer << (w - 2K)` (the most significant character moves to the top of the
word) and run the loop `K` times. -/
def displayFixed (w k n : Nat) : List Nat :=
  displayLoop w k (n * 2 ^ (w - 2 * k) % 2 ^ w)

/-- The two-bit chunking `self.kmer.chunks(2)` of an (even-length) bit
sequence. A trailing odd bit cannot occur: the backing sequence always holds
two bits per base (the source asserts `len % 2 == 0`). -/
def chunkPairs : List Bool → List (Bool × Bool)
  | a :: b :: rest => (a, b) :: chunkPairs rest
  | _ => []

/-- The character of one 2-bit chunk in `Display for BitPackedVectorKmer`. -/
def pairChar : Bool × Bool → Nat
  | (false, false) => 65
  | (false, true) => 67
  | (true, false) => 71
  | (true, true) => 84

/-- `Display for BitPackedVectorKmer` (`encode_to_string`). -/
def displayVector (l : List Bool) : List Nat :=
  (chunkPairs l).map pairChar

/-- One iteration of `BitPackedKmer::reverse_complement`’s loop:
`result <<= 2` (truncating at the word width), `result |= source & 3`
(the shifted value has its low two bits clear, so bit-or is addition),
`source >>= 2`. -/
def rcLoop (w : Nat) : Nat → Nat → Nat → Nat
  | 0, _, result => result
  | j + 1, source, result => rcLoop w j (source / 4) (result * 4 % 2 ^ w + source % 4)

/-- `BitPackedKmer::reverse_complement`: the loop applied `K` times to
`source = !self.kmer` (bitwise complement of a `w`-bit word holding `n`,
i.e. `2 ^ w - 1 - n`) and `result = 0`. -/
def rcF (w k n : Nat) : Nat :=
  rcLoop w k (2 ^ w - 1 - n) 0

/-- `Kmer::canonical` for the fixed-width variant: the derived `Ord` on the
packed word is the numeric order, so `canonical` keeps the smaller of the k-mer
and its reverse complement. -/
def canonF (w k n : Nat) : Nat :=
  if rcF w k n < n then rcF w k n else n

/-- `BitPackedKmer::predecessor`: `character_bits << (K-1)*2` (this shift amount
`2K - 2` is below the width whenever `2K ≤ w`, so it cannot overflow, and the
shifted value stays below `4^K ≤ 2^w`, so nothing is truncated), then
`kmer >> 2 | character_bits` — the operands are disjoint for a valid `2K`-bit
kmer, so the bit-or is addition. -/
def predF (w k n c : Nat) : Nat :=
  n / 4 + (charToDigit c * 4 ^ (k - 1)) % 2 ^ w

/-- `BitPackedKmer::successor`: `kmer << 2` truncated at the width, bit-or the
new character code into the (cleared) low two bits, then `kmer & !(3 << K*2)`.
The mask shift `K*2` overflows the word when `2K = w` — an arithmetic-overflow
defect (abort in debug builds), modelled as `none`.  When `2K < w` the mask
clears exactly bits `2K` and `2K+1`, which in arithmetic is
`v % 4^K + v / 4^(K+1) * 4^(K+1)`. -/
def succF (w k n c : Nat) : Option Nat :=
  if 2 * k < w then
    let v := n * 4 % 2 ^ w + charToDigit c
    some (v % 4 ^ k + v / 4 ^ (k + 1) * 4 ^ (k + 1))
  else none

/-- `has_superstring`’s loop over `b"ACGT"` (`main.rs`): for each character,
build the predecessor- and successor-extensions and their reverse complements
and return `true` as soon as one of them is found in the sorted reference set
(`binary_search(..).is_ok()` on a sorted vector is exactly membership).
The successor’s failure (shift overflow) propagates. -/
def hasSuperstringGo (w k n : Nat) (all : List Nat) : List Nat → Option Bool
  | [] => some false
  | c :: cs => do
      let p := predF w k n c
      let s ← succF w k n c
      if all.contains p || all.contains s || all.contains (rcF w k p) || all.contains (rcF w k s)
      then some true
      else hasSuperstringGo w k n all cs

/-- `has_superstring(kmer, all_kmers)`. -/
def hasSuperstringF (w k n : Nat) (all : List Nat) : Option Bool :=
  hasSuperstringGo w k n all [65, 67, 71, 84]

/-- Lexicographic strict order on byte (or digit) lists: the order of the
decoded character strings that §3 of the specification talks about. -/
def lexLt : List Nat → List Nat → Bool
  | [], [] => false
  | [], _ :: _ => true
  | _ :: _, [] => false
  | a :: as, b :: bs => if a < b then true else if a = b then lexLt as bs else false

/-- Lexicographic strict order on bit sequences with `false < true`: the
derived `Ord` of the growable bit sequence backing `BitPackedVectorKmer`. -/
def lexLtB : List Bool → List Bool → Bool
  | [], [] => false
  | [], _ :: _ => true
  | _ :: _, [] => false
  | a :: as, b :: bs => if a = b then lexLtB as bs else (!a && b)

/-- `BitPackedVectorKmer::reverse_complement`: reverse the 2-bit chunks and
invert every bit (`chunks(2).rev().flat_map(|bits| [!bits[0], !bits[1]])`). -/
def vecRc (l : List Bool) : List Bool :=
  ((chunkPairs l).reverse.map (fun p => [!p.1, !p.2])).flatten

/-- `Kmer::canonical` for the vector variant, with the derived lexicographic
bit order. -/
def canonV (l : List Bool) : List Bool :=
  if lexLtB (vecRc l) l then vecRc l else l

/-! ## The streaming parser (`kmer_iterator.rs`) -/

/-- The parser states of `KmerIterator`. The Rust `State::GfaS` arm reads one
byte and, once that byte is a tab, enters a nested loop that scans for the
second tab; byte-for-byte this is two states, `gfaS` (no tab seen yet) and
`gfaSTab` (one tab seen). All other constructors match `State` one to one. -/
inductive PState where
  | idle
  | gfaS
  | gfaSTab
  | gfaSequence
  | faId
  | faSequence
  | eof
deriving DecidableEq, Repr

/-- The sticky detected `Format`. -/
inductive PFormat where
  | undetected
  | gfa
  | fa
deriving DecidableEq, Repr

/-- The mutable fields of `KmerIterator`: state, sticky format, the sliding
window (`VecDeque<u8>`), and the two running counters. -/
structure PM where
  state : PState
  format : PFormat
  buffer : List Nat
  seqCount : Nat
  charCount : Nat
deriving DecidableEq, Repr

/-- `KmerIterator::new`. -/
def initPM : PM :=
  ⟨.idle, .undetected, [], 0, 0⟩

/-- `u8::to_ascii_uppercase`. -/
def upperByte (c : Nat) : Nat :=
  if 97 ≤ c ∧ c ≤ 122 then c - 32 else c

/-- Window handling shared by the two sequence states: push the byte, and when
the window reaches `k`, collect it into a k-mer (whose count the source adds to
`character_count`) and drop the oldest character. -/
def pushChar (k : Nat) (m : PM) (c : Nat) : PM × Option Nat :=
  let buf := m.buffer ++ [c]
  if buf.length = k then
    ({ m with buffer := buf.tail, charCount := m.charCount + 1 }, some (packBytes buf))
  else
    ({ m with buffer := buf }, none)

/-- Leaving a sequence state: the residual window content is added to
`character_count` and the window is cleared (`kmer_iterator.rs`, the two lines
after each inner sequence loop). -/
def flushTo (s : PState) (m : PM) : PM :=
  { m with state := s, buffer := [], charCount := m.charCount + m.buffer.length }

/-- One byte (`some c`) or end-of-stream (`none`) fed to `KmerIterator::next`,
returning the updated iterator and an emitted k-mer if the window filled.
Format-conflict and no-k-mers anomalies only log in lenient mode, which is what
is modelled here (the verified runs below contain no anomaly, so the
`panic_on_parse_error` flag is irrelevant to them). Note that end-of-stream in
state `gfaS` leaves the machine unchanged: the Rust arm only tests the byte
against `'\t'` and has no end-of-stream transition before the first tab. -/
def processByte (k : Nat) (m : PM) (c : Option Nat) : PM × Option Nat :=
  match m.state with
  | .idle =>
      match c with
      | none => ({ m with state := .eof }, none)
      | some b =>
          if b = 83 then
            ({ m with state := .gfaS, format := if m.format = .fa then m.format else .gfa }, none)
          else if b = 62 then
            ({ m with state := .faId, format := if m.format = .gfa then m.format else .fa }, none)
          else (m, none)
  | .gfaS =>
      match c with
      | none => (m, none)
      | some b => if b = 9 then ({ m with state := .gfaSTab }, none) else (m, none)
  | .gfaSTab =>
      match c with
      | none => ({ m with state := .eof }, none)
      | some b =>
          if b = 9 then ({ m with state := .gfaSequence, seqCount := m.seqCount + 1 }, none)
          else (m, none)
  | .gfaSequence =>
      match c with
      | none => (flushTo .eof m, none)
      | some b =>
          let u := upperByte b
          if u = 65 ∨ u = 67 ∨ u = 71 ∨ u = 84 then pushChar k m u
          else (flushTo .idle m, none)
  | .faId =>
      match c with
      | none => ({ m with state := .eof }, none)
      | some b =>
          if b = 10 then ({ m with state := .faSequence, seqCount := m.seqCount + 1 }, none)
          else (m, none)
  | .faSequence =>
      match c with
      | none => (flushTo .eof m, none)
      | some b =>
          let u := upperByte b
          if u = 65 ∨ u = 67 ∨ u = 71 ∨ u = 84 then pushChar k m u
          else if u = 10 then (m, none)
          else if u = 62 then (flushTo .faId m, none)
          else (flushTo .idle m, none)
  | .eof => (m, none)

/-- Driving the iterator to exhaustion: collect every emitted k-mer and return
them with the final iterator (whose counters the comparator reads). `next`
loops until the state is `Eof`; the fuel bounds the number of processed bytes
and end-of-stream probes, and running out of fuel (`none`) models an iterator
whose `next` never returns. -/
def runP (k : Nat) : Nat → PM → List Nat → Option (List Nat × PM)
  | 0, _, _ => none
  | fuel + 1, m, input =>
      if m.state = .eof then some ([], m)
      else
        match input with
        | [] =>
            let r := processByte k m none
            (runP k fuel r.1 []).map (fun p => (p.1, p.2))
        | c :: rest =>
            let r := processByte k m (some c)
            (runP k fuel r.1 rest).map
              (fun p => (match r.2 with | some e => e :: p.1 | none => p.1, p.2))

/-! ## The set comparator (`main.rs`) -/

/-- Ascending insertion of one element into a sorted list. -/
def insertSorted (x : Nat) : List Nat → List Nat
  | [] => [x]
  | y :: ys => if x ≤ y then x :: y :: ys else y :: insertSorted x ys

/-- `sort_unstable` on the collected k-mer vector, modelled as insertion sort
(the source relies only on the output being in ascending order; stability is
irrelevant for a total order on integers). -/
def sortKmers (l : List Nat) : List Nat :=
  l.foldr insertSorted []

/-- The duplicate-removing `retain` pass of `compare_kmer_sets`: each element is
compared with the immediately preceding element of the vector (the tracked
`previous_kmer` is overwritten on every step), so exactly the consecutive
duplicates are dropped. -/
def dedupGo (prev : Nat) : List Nat → List Nat
  | [] => []
  | y :: ys => if y = prev then dedupGo y ys else y :: dedupGo y ys

/-- Consecutive deduplication (see `dedupGo`). -/
def dedupConsecutive : List Nat → List Nat
  | [] => []
  | x :: xs => x :: dedupGo x xs

/-- Canonicalize, sort and deduplicate one stream’s k-mers — lines 94–115 (and
148–169) of `main.rs`. -/
def canonStage (w k : Nat) (ks : List Nat) : List Nat :=
  dedupConsecutive (sortKmers (ks.map (canonF w k)))

/-- The `filter(|kmer| !has_superstring(kmer, &kmers))` pass building
`unitig_kmers_without_superstrings`; a `has_superstring` failure (successor
shift overflow) propagates. -/
def filterNoSuperstring (w k : Nat) (all : List Nat) : List Nat → Option (List Nat)
  | [] => some []
  | x :: xs => do
      let b ← hasSuperstringF w k x all
      let rest ← filterNoSuperstring w k all xs
      if b then pure rest else pure (x :: rest)

/-- The merge-join of the two sorted deduplicated streams (`main.rs` 192–216):
while both iterators have a head, compare; on `Less` the reference-only k-mer
is counted as superfluous unless it is found in `ws`
(`unitig_kmers_without_superstrings`, searched by `binary_search`, i.e.
membership in the sorted list); on `Greater` the test-only k-mer is counted; on
`Equal` both advance. The loop ends as soon as either side is exhausted.
Returns (superfluous reference k-mers, superfluous test k-mers). -/
def mergeCountsAux (ws : List Nat) : Nat → List Nat → List Nat → Nat × Nat
  | 0, _, _ => (0, 0)
  | fuel + 1, us, ts =>
      match us, ts with
      | [], _ => (0, 0)
      | _ :: _, [] => (0, 0)
      | u :: us', t :: ts' =>
          match compare u t with
          | .lt =>
              let r := mergeCountsAux ws fuel us' (t :: ts')
              if ws.contains u then r else (r.1 + 1, r.2)
          | .eq => mergeCountsAux ws fuel us' ts'
          | .gt =>
              let r := mergeCountsAux ws fuel (u :: us') ts'
              (r.1, r.2 + 1)

/-- The merge loop entry point: every iteration consumes at least one element,
so `|us| + |ts|` iterations always suffice and the bound never expires (the
fuel-irrelevance lemma below makes this precise). -/
def mergeCounts (ws us ts : List Nat) : Nat × Nat :=
  mergeCountsAux ws (us.length + ts.length) us ts

/-- The outcomes of `compare_kmer_sets` (the `Error` enum of `main.rs`;
`IllegalKmerSize` is produced by `main` before the comparison and never by
`compare_kmer_sets` itself). -/
inductive CmpError where
  | mismatch
  | illegalKmerSize
deriving DecidableEq, Repr

/-- The final verdict of `compare_kmer_sets` (lines 264–299) from the two
superfluous-k-mer counts, the expected unique reference k-mer count
`reference_characters - reference_records * (k-1)` and the analogous test
count: with no superfluous k-mers on either side the counts are compared, and
a larger reference count is an error unless cuttlefish2 errors are allowed;
any superfluous k-mer is a mismatch. -/
def verdictOf (allow : Bool) (su st uniq testCnt : Nat) : Except CmpError Unit :=
  if su = 0 ∧ st = 0 then
    match compare uniq testCnt with
    | .gt => if allow then .ok () else .error .mismatch
    | .eq => .ok ()
    | .lt => .ok ()
  else .error .mismatch

/-- Everything `compare_kmer_sets` externalizes: the returned verdict plus the
quantities driving it (the superfluous counts and the printed k-mer counts). -/
structure CompareRes where
  verdict : Except CmpError Unit
  su : Nat
  st : Nat
  uniq : Nat
  testCnt : Nat
deriving DecidableEq, Repr

/-- `compare_kmer_sets` over the fixed-width k-mer representation with width
`w` (`main` dispatches e.g. `k = 3` to `BitPackedKmer<3, u8>`, i.e. `w = 8`).
`none` models a run that aborts (a failed `assert_eq!` count check, a
`usize` underflow in those checks, the successor shift overflow inside
`has_superstring`) or that never finishes (fuel exhaustion in the parser).
Both streams are consumed exactly as in the source: parse, canonicalize, sort,
deduplicate, check the count invariant, build the no-superstring list (empty
unless `allow_cuttlefish2_errors`), merge, and derive the verdict. -/
def compareKmerSetsF (w k fuel : Nat) (doNotVerify allow : Bool)
    (refIn testIn : List Nat) : Option CompareRes :=
  match runP k fuel initPM refIn, runP k fuel initPM testIn with
  | some (refKmers, refM), some (testKmers, testM) =>
      if doNotVerify then
        if refM.seqCount * (k - 1) ≤ refM.charCount
            ∧ testM.seqCount * (k - 1) ≤ testM.charCount then
          let uniq := refM.charCount - refM.seqCount * (k - 1)
          let testCnt := testM.charCount - testM.seqCount * (k - 1)
          some ⟨verdictOf allow 0 0 uniq testCnt, 0, 0, uniq, testCnt⟩
        else none
      else
        let refList := canonStage w k refKmers
        if refM.seqCount * (k - 1) ≤ refM.charCount
            ∧ refList.length + (refKmers.length - refList.length)
              = refM.charCount - refM.seqCount * (k - 1) then
          match (if allow then filterNoSuperstring w k refList refList else some []) with
          | some ws =>
              let testList := canonStage w k testKmers
              if testM.seqCount * (k - 1) ≤ testM.charCount
                  ∧ testList.length + (testKmers.length - testList.length)
                    = testM.charCount - testM.seqCount * (k - 1) then
                let c := mergeCounts ws refList testList
                let uniq := refM.charCount - refM.seqCount * (k - 1)
                let testCnt := testM.charCount - testM.seqCount * (k - 1)
                some ⟨verdictOf allow c.1 c.2 uniq testCnt, c.1, c.2, uniq, testCnt⟩
              else none
          | none => none
      else none
  | _, _ => none

/-- The canonical deduplicated k-mer set of one input stream — what §4.3 calls
the stream’s k-mer content after canonicalization and deduplication. -/
def canonicalKmerList (w k fuel : Nat) (input : List Nat) : Option (List Nat) :=
  (runP k fuel initPM input).map (fun p => canonStage w k p.1)

/-- The byte stream of the FASTA input `>a` newline `AAAA`. -/
def inAAAA : List Nat := [62, 97, 10, 65, 65, 65, 65]

/-- The byte stream of the FASTA input `>a` newline `AAA`. -/
def inAAA : List Nat := [62, 97, 10, 65, 65, 65]

/-- The byte stream of the FASTA input `>a` newline `AACA`. -/
def inAACA : List Nat := [62, 97, 10, 65, 65, 67, 65]

/-- The byte stream of the FASTA input `>a` newline `ACA`. -/
def inACA : List Nat := [62, 97, 10, 65, 67, 65]

/-- The byte stream of the two-record FASTA input
`>b` newline `AAAC` newline `>` newline `CAGT` newline. -/
def inTwoRecords : List Nat := [62, 98, 10, 65, 65, 65, 67, 10, 62, 10, 67, 65, 71, 84, 10]

/-! ## Arithmetic facts about the packed representation -/

theorem charToDigit_lt (c : Nat) : charToDigit c < 4 := by
  unfold charToDigit
  split <;> [omega; split <;> [omega; split <;> [omega; split <;> omega]]]

theorem isDnaB_iff (c : Nat) : isDnaB c = true ↔ c = 65 ∨ c = 67 ∨ c = 71 ∨ c = 84 := by
  simp [isDnaB, or_assoc]

theorem digitToChar_charToDigit (c : Nat) (h : isDnaB c = true) :
    digitToChar (charToDigit c) = c := by
  rcases (isDnaB_iff c).1 h with rfl | rfl | rfl | rfl <;> rfl

theorem packB_foldl_acc (b : Nat) : ∀ (l : List Nat) (a : Nat),
    l.foldl (fun r d => b * r + d) a = a * b ^ l.length + packB b l
  | [], a => by simp [packB]
  | d :: l, a => by
      have h1 := packB_foldl_acc b l (b * a + d)
      have h2 := packB_foldl_acc b l (b * 0 + d)
      simp only [packB, List.foldl_cons] at *
      rw [h1, h2, List.length_cons, pow_succ]
      ring

theorem packB_cons (b d : Nat) (l : List Nat) :
    packB b (d :: l) = d * b ^ l.length + packB b l := by
  have := packB_foldl_acc b l (b * 0 + d)
  simpa [packB] using this

theorem packB_concat (b d : Nat) (l : List Nat) :
    packB b (l ++ [d]) = b * packB b l + d := by
  simp [packB, List.foldl_append]

theorem packB_lt (b : Nat) : ∀ l : List Nat, (∀ d ∈ l, d < b) → packB b l < b ^ l.length
  | [], _ => by simp [packB]
  | d :: l, h => by
      have hd : d < b := h d (by simp)
      have hl : packB b l < b ^ l.length := packB_lt b l (fun x hx => h x (by simp [hx]))
      rw [packB_cons, List.length_cons, pow_succ]
      calc d * b ^ l.length + packB b l
          < d * b ^ l.length + b ^ l.length := by omega
        _ = (d + 1) * b ^ l.length := by ring
        _ ≤ b * b ^ l.length := Nat.mul_le_mul_right _ (by omega)
        _ = b ^ l.length * b := by ring

theorem packB_lt_iff (b : Nat) : ∀ s t : List Nat, s.length = t.length →
    (∀ d ∈ s, d < b) → (∀ d ∈ t, d < b) →
    (packB b s < packB b t ↔ lexLt s t = true)
  | [], [], _, _, _ => by simp [packB, lexLt]
  | [], _ :: _, h, _, _ => by simp at h
  | _ :: _, [], h, _, _ => by simp at h
  | a :: as, c :: cs, h, hs, ht => by
      have hlen : as.length = cs.length := by simpa using h
      have has : ∀ d ∈ as, d < b := fun x hx => hs x (by simp [hx])
      have hcs : ∀ d ∈ cs, d < b := fun x hx => ht x (by simp [hx])
      have hpa : packB b as < b ^ as.length := packB_lt b as has
      have hpc : packB b cs < b ^ cs.length := packB_lt b cs hcs
      rw [packB_cons, packB_cons, ← hlen]
      rcases Nat.lt_trichotomy a c with hac | hac | hac
      · have hlt : a * b ^ as.length + packB b as < c * b ^ as.length + packB b cs := by
          calc a * b ^ as.length + packB b as
              < a * b ^ as.length + b ^ as.length := by omega
            _ = (a + 1) * b ^ as.length := by ring
            _ ≤ c * b ^ as.length := Nat.mul_le_mul_right _ (by omega)
            _ ≤ c * b ^ as.length + packB b cs := Nat.le_add_right _ _
        simp [lexLt, hac, hlt]
      · subst hac
        have hiff := packB_lt_iff b as cs hlen has hcs
        simp [lexLt, hiff]
      · have hpc' : packB b cs < b ^ as.length := by rw [hlen]; exact hpc
        have hge : c * b ^ as.length + packB b cs < a * b ^ as.length + packB b as := by
          calc c * b ^ as.length + packB b cs
              < c * b ^ as.length + b ^ as.length := by omega
            _ = (c + 1) * b ^ as.length := by ring
            _ ≤ a * b ^ as.length := Nat.mul_le_mul_right _ (by omega)
            _ ≤ a * b ^ as.length + packB b as := Nat.le_add_right _ _
        have h1 : ¬ (a * b ^ as.length + packB b as < c * b ^ as.length + packB b cs) := by omega
        have h2 : ¬ a < c := by omega
        have h3 : a ≠ c := by omega
        simp [lexLt, h1, h2, h3]

/-- The base-`b` digit expansion of `n` with exactly `k` digits, most
significant first. -/
def natDigits (b : Nat) : Nat → Nat → List Nat
  | 0, _ => []
  | k + 1, n => natDigits b k (n / b) ++ [n % b]

theorem natDigits_length (b : Nat) : ∀ k n, (natDigits b k n).length = k
  | 0, _ => rfl
  | k + 1, n => by simp [natDigits, natDigits_length b k]

theorem natDigits_lt (b : Nat) (hb : 0 < b) : ∀ k n, ∀ d ∈ natDigits b k n, d < b
  | 0, _ => by simp [natDigits]
  | k + 1, n => by
      intro d hd
      simp only [natDigits, List.mem_append, List.mem_singleton] at hd
      rcases hd with hd | rfl
      · exact natDigits_lt b hb k (n / b) d hd
      · exact Nat.mod_lt _ hb

theorem packB_natDigits (b : Nat) (hb : 0 < b) : ∀ k n, n < b ^ k →
    packB b (natDigits b k n) = n
  | 0, n, h => by
      simp only [pow_zero, Nat.lt_one_iff] at h
      simp [natDigits, packB, h]
  | k + 1, n, h => by
      have hdiv : n / b < b ^ k := by
        rw [Nat.div_lt_iff_lt_mul hb, mul_comm]
        rw [pow_succ] at h
        exact lt_of_lt_of_le h (by rw [mul_comm])
      have := packB_natDigits b hb k (n / b) hdiv
      simp [natDigits, packB_concat, this, Nat.div_add_mod]

theorem rcLoop_add_mul (w : Nat) : ∀ (j s m r : Nat),
    rcLoop w j (s + m * 4 ^ j) r = rcLoop w j s r
  | 0, _, _, _ => rfl
  | j + 1, s, m, r => by
      have hmod : (s + m * 4 ^ (j + 1)) % 4 = s % 4 := by
        have : m * 4 ^ (j + 1) = m * 4 ^ j * 4 := by ring
        rw [this, Nat.add_mul_mod_self_right]
      have hdiv : (s + m * 4 ^ (j + 1)) / 4 = s / 4 + m * 4 ^ j := by
        have : m * 4 ^ (j + 1) = m * 4 ^ j * 4 := by ring
        rw [this, Nat.add_mul_div_right _ _ (by norm_num : (0:Nat) < 4)]
      simp only [rcLoop, hmod, hdiv]
      exact rcLoop_add_mul w j (s / 4) m _

theorem rcLoop_pack (w : Nat) : ∀ (s : List Nat) (r : Nat), (∀ d ∈ s, d < 4) →
    r * 4 ^ s.length + packB 4 s.reverse < 2 ^ w →
    rcLoop w s.length (packB 4 s) r = r * 4 ^ s.length + packB 4 s.reverse := by
  intro s
  induction s using List.reverseRecOn with
  | nil => intro r _ _; simp [packB, rcLoop]
  | append_singleton l d ih =>
      intro r hval hbound
      have hd : d < 4 := hval d (by simp)
      have hl : ∀ x ∈ l, x < 4 := fun x hx => hval x (by simp [hx])
      have hlen : (l ++ [d]).length = l.length + 1 := by simp
      have hrev : (l ++ [d]).reverse = d :: l.reverse := by simp
      have hpackrev : packB 4 ((l ++ [d]).reverse) = d * 4 ^ l.length + packB 4 l.reverse := by
        rw [hrev, packB_cons]; simp
      have hbound' : r * 4 ^ (l.length + 1) + (d * 4 ^ l.length + packB 4 l.reverse) < 2 ^ w := by
        rw [hlen, hpackrev] at hbound; exact hbound
      have hr4 : r * 4 < 2 ^ w := by
        have h1 : r * 4 ≤ r * 4 ^ (l.length + 1) :=
          Nat.mul_le_mul_left r (by
            have : (4:Nat) ^ 1 ≤ 4 ^ (l.length + 1) :=
              Nat.pow_le_pow_right (by norm_num) (by omega)
            simpa using this)
        omega
      have hsplit : packB 4 (l ++ [d]) = 4 * packB 4 l + d := packB_concat 4 d l
      have hdiv : (4 * packB 4 l + d) / 4 = packB 4 l := by omega
      have hmod : (4 * packB 4 l + d) % 4 = d := by omega
      have hmodw : r * 4 % 2 ^ w = r * 4 := Nat.mod_eq_of_lt hr4
      rw [hlen, hsplit]
      simp only [rcLoop, hdiv, hmod, hmodw]
      have hboundi : (r * 4 + d) * 4 ^ l.length + packB 4 l.reverse < 2 ^ w := by
        have : (r * 4 + d) * 4 ^ l.length = r * 4 ^ (l.length + 1) + d * 4 ^ l.length := by ring
        omega
      rw [ih (r * 4 + d) hl hboundi, hpackrev]
      ring

theorem packB_compl : ∀ s : List Nat, (∀ d ∈ s, d < 4) →
    packB 4 (s.map (fun d => 3 - d)) = 4 ^ s.length - 1 - packB 4 s
  | [], _ => by simp [packB]
  | d :: l, h => by
      have hd : d < 4 := h d (by simp)
      have hl : ∀ x ∈ l, x < 4 := fun x hx => h x (by simp [hx])
      have hpl : packB 4 l < 4 ^ l.length := packB_lt 4 l hl
      have ih := packB_compl l hl
      have hX : (0:Nat) < 4 ^ l.length := Nat.pos_pow_of_pos _ (by norm_num)
      have hD : d * 4 ^ l.length ≤ 3 * 4 ^ l.length := Nat.mul_le_mul_right _ (by omega)
      have h3d : (3 - d) * 4 ^ l.length = 3 * 4 ^ l.length - d * 4 ^ l.length :=
        Nat.sub_mul 3 d _
      simp only [List.map_cons, packB_cons, List.length_map, List.length_cons, ih, pow_succ]
      omega

/-- `reverse_complement` of a valid fixed-width k-mer, at the digit level:
complement every base-4 digit and reverse the digit string. -/
theorem rcF_pack (w k : Nat) (s : List Nat) (hw : 2 * k ≤ w)
    (hval : ∀ d ∈ s, d < 4) (hlen : s.length = k) :
    rcF w k (packB 4 s) = packB 4 ((s.map (fun d => 3 - d)).reverse) := by
  have h4k : (4:Nat) ^ k = 2 ^ (2 * k) := by
    rw [show (4:Nat) = 2 ^ 2 by norm_num, ← pow_mul]
  have h4kle : (4:Nat) ^ k ≤ 2 ^ w := by
    rw [h4k]; exact Nat.pow_le_pow_right (by norm_num) hw
  have hp : packB 4 s < 4 ^ k := by
    have := packB_lt 4 s hval; rwa [hlen] at this
  have hprod : 2 ^ (w - 2 * k) * 4 ^ k = 2 ^ w := by
    rw [h4k, ← pow_add]
    congr 1
    omega
  have hBpos : (0:Nat) < 2 ^ (w - 2 * k) := Nat.pos_pow_of_pos _ (by norm_num)
  have hsub : (2 ^ (w - 2 * k) - 1) * 4 ^ k = 2 ^ w - 4 ^ k := by
    rw [Nat.sub_mul, one_mul, hprod]
  have hsplit : 2 ^ w - 1 - packB 4 s
      = (4 ^ k - 1 - packB 4 s) + (2 ^ (w - 2 * k) - 1) * 4 ^ k := by
    rw [hsub]; omega
  have hvalc : ∀ d ∈ s.map (fun d => 3 - d), d < 4 := by
    intro d hd
    rcases List.mem_map.1 hd with ⟨x, _, rfl⟩
    omega
  have hlenc : (s.map (fun d => 3 - d)).length = k := by simp [hlen]
  have hcompl : 4 ^ k - 1 - packB 4 s = packB 4 (s.map (fun d => 3 - d)) := by
    rw [packB_compl s hval, hlen]
  have hvalr : ∀ d ∈ (s.map (fun d => 3 - d)).reverse, d < 4 := by
    intro d hd; exact hvalc d (List.mem_reverse.1 hd)
  have hboundr : packB 4 ((s.map (fun d => 3 - d)).reverse) < 2 ^ w := by
    have := packB_lt 4 _ hvalr
    rw [List.length_reverse, hlenc] at this
    omega
  have hmain := rcLoop_pack w (s.map (fun d => 3 - d)) 0 hvalc (by simpa [hlenc] using hboundr)
  rw [hlenc] at hmain
  unfold rcF
  rw [hsplit, hcompl, rcLoop_add_mul w k (packB 4 (s.map (fun d => 3 - d))) _ 0, hmain]
  simp

theorem rcF_valid (w k n : Nat) (hw : 2 * k ≤ w) (hn : n < 4 ^ k) : rcF w k n < 4 ^ k := by
  have hpack := packB_natDigits 4 (by norm_num) k n hn
  have hval := natDigits_lt 4 (by norm_num) k n
  have hlen := natDigits_length 4 k n
  rw [← hpack, rcF_pack w k _ hw hval hlen]
  have hvalr : ∀ d ∈ ((natDigits 4 k n).map (fun d => 3 - d)).reverse, d < 4 := by
    intro d hd
    rcases List.mem_map.1 (List.mem_reverse.1 hd) with ⟨x, _, rfl⟩
    omega
  have := packB_lt 4 _ hvalr
  simpa [hlen] using this

theorem rcF_rcF (w k n : Nat) (hw : 2 * k ≤ w) (hn : n < 4 ^ k) :
    rcF w k (rcF w k n) = n := by
  have hpack := packB_natDigits 4 (by norm_num) k n hn
  have hval := natDigits_lt 4 (by norm_num) k n
  have hlen := natDigits_length 4 k n
  set s := natDigits 4 k n with hs
  have h1 : rcF w k n = packB 4 ((s.map (fun d => 3 - d)).reverse) := by
    rw [← hpack]; exact rcF_pack w k s hw hval hlen
  have hval2 : ∀ d ∈ (s.map (fun d => 3 - d)).reverse, d < 4 := by
    intro d hd
    rcases List.mem_map.1 (List.mem_reverse.1 hd) with ⟨x, _, rfl⟩
    omega
  have hlen2 : ((s.map (fun d => 3 - d)).reverse).length = k := by simp [hlen]
  have h2 := rcF_pack w k _ hw hval2 hlen2
  rw [h1, h2]
  have hmaps : ((s.map (fun d => 3 - d)).reverse.map (fun d => 3 - d)).reverse
      = s.map (fun d : Nat => 3 - (3 - d)) := by
    rw [← List.map_reverse, List.reverse_reverse, List.map_map]
    rfl
  have hid : s.map (fun d : Nat => 3 - (3 - d)) = s.map id :=
    List.map_congr_left (fun x hx => by have := hval x hx; simp; omega)
  rw [hmaps, hid, List.map_id, hpack]

theorem displayLoop_pack (w : Nat) : ∀ s : List Nat, (∀ d ∈ s, d < 4) → 2 * s.length ≤ w →
    displayLoop w s.length (packB 4 s * 2 ^ (w - 2 * s.length)) = s.map digitToChar
  | [], _, _ => rfl
  | d :: l, h, hw => by
      have hd : d < 4 := h d (by simp)
      have hl : ∀ x ∈ l, x < 4 := fun x hx => h x (by simp [hx])
      have hp : packB 4 l < 4 ^ l.length := packB_lt 4 l hl
      have h4n : (4:Nat) ^ l.length = 2 ^ (2 * l.length) := by
        rw [show (4:Nat) = 2 ^ 2 by norm_num, ← pow_mul]
      obtain ⟨e, he⟩ : ∃ e, w = 2 * l.length + 2 + e := by
        refine ⟨w - (2 * l.length + 2), ?_⟩
        simp only [List.length_cons] at hw
        omega
      subst he
      have hpow : (4:Nat) ^ l.length * 2 ^ e = 2 ^ (2 * l.length + e) := by
        rw [h4n, ← pow_add]
      have hcur : packB 4 (d :: l) * 2 ^ e
          = d * 2 ^ (2 * l.length + e) + packB 4 l * 2 ^ e := by
        rw [packB_cons, ← hpow]; ring
      have hrlt : packB 4 l * 2 ^ e < 2 ^ (2 * l.length + e) := by
        rw [← hpow]
        exact mul_lt_mul_of_pos_right hp (Nat.pos_pow_of_pos _ (by norm_num))
      have hdigit : (d * 2 ^ (2 * l.length + e) + packB 4 l * 2 ^ e)
          / 2 ^ (2 * l.length + e) = d := by
        rw [add_comm, Nat.add_mul_div_right _ _ (Nat.pos_pow_of_pos _ (by norm_num)),
          Nat.div_eq_of_lt hrlt]
        omega
      have hpow2 : (2:Nat) ^ (2 * l.length + e) * 4 = 2 ^ (2 * l.length + 2 + e) := by
        rw [show (4:Nat) = 2 ^ 2 by norm_num, ← pow_add,
          show 2 * l.length + e + 2 = 2 * l.length + 2 + e from by omega]
      have hpow3 : (2:Nat) ^ e * 4 = 2 ^ (e + 2) := by
        rw [show (4:Nat) = 2 ^ 2 by norm_num, ← pow_add]
      have hxlt : packB 4 l * 2 ^ (e + 2) < 2 ^ (2 * l.length + 2 + e) := by
        have h1 : (4:Nat) ^ l.length * 2 ^ (e + 2) = 2 ^ (2 * l.length + 2 + e) := by
          rw [h4n, ← pow_add, show 2 * l.length + (e + 2) = 2 * l.length + 2 + e from by omega]
        rw [← h1]
        exact mul_lt_mul_of_pos_right hp (Nat.pos_pow_of_pos _ (by norm_num))
      have hnext : (d * 2 ^ (2 * l.length + e) + packB 4 l * 2 ^ e) * 4
          % 2 ^ (2 * l.length + 2 + e) = packB 4 l * 2 ^ (e + 2) := by
        have ha : (d * 2 ^ (2 * l.length + e) + packB 4 l * 2 ^ e) * 4
            = packB 4 l * 2 ^ (e + 2) + d * 2 ^ (2 * l.length + 2 + e) := by
          rw [← hpow2, ← hpow3]; ring
        rw [ha, Nat.add_mul_mod_self_right, Nat.mod_eq_of_lt hxlt]
      have ih := displayLoop_pack (2 * l.length + 2 + e) l hl (by omega)
      rw [show 2 * l.length + 2 + e - 2 * l.length = e + 2 from by omega] at ih
      simp only [List.length_cons, List.map_cons]
      rw [show 2 * l.length + 2 + e - 2 * (l.length + 1) = e from by omega]
      simp only [displayLoop]
      rw [hcur, show 2 * l.length + 2 + e - 2 = 2 * l.length + e from by omega, hdigit, hnext, ih]

theorem displayFixed_pack (w k : Nat) (s : List Nat) (hw : 2 * k ≤ w)
    (hval : ∀ d ∈ s, d < 4) (hlen : s.length = k) :
    displayFixed w k (packB 4 s) = s.map digitToChar := by
  have hp : packB 4 s < 4 ^ k := by
    have := packB_lt 4 s hval; rwa [hlen] at this
  have hfit : packB 4 s * 2 ^ (w - 2 * k) < 2 ^ w := by
    have h1 : (4:Nat) ^ k * 2 ^ (w - 2 * k) = 2 ^ w := by
      rw [show (4:Nat) = 2 ^ 2 by norm_num, ← pow_mul, ← pow_add]
      congr 1
      omega
    calc packB 4 s * 2 ^ (w - 2 * k)
        < 4 ^ k * 2 ^ (w - 2 * k) :=
          mul_lt_mul_of_pos_right hp (Nat.pos_pow_of_pos _ (by norm_num))
      _ = 2 ^ w := h1
  unfold displayFixed
  rw [Nat.mod_eq_of_lt hfit]
  have := displayLoop_pack w s hval (by omega)
  rwa [hlen] at this

theorem packDna_ok_chars : ∀ (s : List Nat) (acc x : Nat), packDna acc s = .ok x →
    ∀ c ∈ s, isDnaB c = true
  | [], _, _, _ => by simp
  | c :: cs, acc, x, h => by
      by_cases hc : isDnaB c
      · intro d hd
        rcases List.mem_cons.1 hd with rfl | hd
        · exact hc
        · exact packDna_ok_chars cs _ x (by simpa [packDna, hc] using h) d hd
      · simp [packDna, hc] at h

theorem packDna_eq : ∀ (s : List Nat) (acc : Nat), (∀ c ∈ s, isDnaB c = true) →
    packDna acc s = .ok (List.foldl (fun r c => 4 * r + charToDigit c) acc s)
  | [], _, _ => rfl
  | c :: cs, acc, h => by
      have hc : isDnaB c = true := h c (by simp)
      have := packDna_eq cs (4 * acc + charToDigit c) (fun d hd => h d (by simp [hd]))
      simp [packDna, hc, this]

theorem fixedFromIter_ok (k w : Nat) (s : List Nat) (x : Nat)
    (h : fixedFromIter k w s = .ok x) :
    2 * k ≤ w ∧ s.length = k ∧ (∀ c ∈ s, isDnaB c = true) ∧ x = packBytes s := by
  unfold fixedFromIter at h
  by_cases hw : 2 * k ≤ w
  · by_cases hlen : s.length = k
    · simp only [hw, hlen, if_pos] at h
      have hchars := packDna_ok_chars s 0 x h
      have heq := packDna_eq s 0 hchars
      rw [heq] at h
      have hx : x = List.foldl (fun r c => 4 * r + charToDigit c) 0 s := by
        cases h; rfl
      refine ⟨hw, hlen, hchars, ?_⟩
      rw [hx, packBytes, packB, List.foldl_map]
    · simp [hw, hlen] at h
  · simp [hw] at h

theorem packBits_ok : ∀ (s : List Nat) (acc xb : List Bool), packBits acc s = .ok xb →
    (∀ c ∈ s, isDnaB c = true) ∧ xb = acc ++ toBits (s.map charToDigit)
  | [], acc, xb, h => by
      have hx : xb = acc := by
        simp only [packBits] at h
        cases h; rfl
      simp [hx, toBits]
  | c :: cs, acc, xb, h => by
      by_cases hc : isDnaB c
      · have ih := packBits_ok cs _ xb (by simpa [packBits, hc] using h)
        constructor
        · intro d hd
          rcases List.mem_cons.1 hd with rfl | hd
          · exact hc
          · exact ih.1 d hd
        · rw [ih.2]
          simp [toBits]
      · simp [packBits, hc] at h

theorem vectorFromIter_ok (s : List Nat) (xb : List Bool)
    (h : vectorFromIter s = .ok xb) :
    (∀ c ∈ s, isDnaB c = true) ∧ xb = toBits (s.map charToDigit) := by
  have := packBits_ok s [] xb h
  simpa using this

theorem toBits_cons (d : Nat) (ds : List Nat) :
    toBits (d :: ds) = d.testBit 1 :: d.testBit 0 :: toBits ds := by
  simp [toBits]

theorem displayVector_toBits : ∀ ds : List Nat, (∀ d ∈ ds, d < 4) →
    displayVector (toBits ds) = ds.map digitToChar
  | [], _ => rfl
  | d :: ds, h => by
      have hd : d < 4 := h d (by simp)
      have ih := displayVector_toBits ds (fun x hx => h x (by simp [hx]))
      have key : pairChar (d.testBit 1, d.testBit 0) = digitToChar d := by
        have hcases : d = 0 ∨ d = 1 ∨ d = 2 ∨ d = 3 := by omega
        rcases hcases with rfl | rfl | rfl | rfl <;> decide
      rw [toBits_cons]
      simp only [displayVector, chunkPairs, List.map_cons] at ih ⊢
      rw [key, ih]

theorem map_roundtrip (s : List Nat) (h : ∀ c ∈ s, isDnaB c = true) :
    (s.map charToDigit).map digitToChar = s := by
  rw [List.map_map]
  have : s.map (digitToChar ∘ charToDigit) = s.map id :=
    List.map_congr_left (fun x hx => by
      simp only [Function.comp, id]
      exact digitToChar_charToDigit x (h x hx))
  rw [this, List.map_id]

theorem charToDigit_lt_all (s : List Nat) : ∀ d ∈ s.map charToDigit, d < 4 := by
  intro d hd
  rcases List.mem_map.1 hd with ⟨c, _, rfl⟩
  exact charToDigit_lt c

theorem lexLt_map_charToDigit : ∀ s t : List Nat,
    (∀ c ∈ s, isDnaB c = true) → (∀ c ∈ t, isDnaB c = true) →
    lexLt (s.map charToDigit) (t.map charToDigit) = lexLt s t
  | [], [], _, _ => rfl
  | [], _ :: _, _, _ => rfl
  | _ :: _, [], _, _ => rfl
  | a :: as, c :: cs, hs, ht => by
      have ha : isDnaB a = true := hs a (by simp)
      have hc : isDnaB c = true := ht c (by simp)
      have ih := lexLt_map_charToDigit as cs
        (fun x hx => hs x (by simp [hx])) (fun x hx => ht x (by simp [hx]))
      rcases (isDnaB_iff a).1 ha with rfl | rfl | rfl | rfl <;>
        rcases (isDnaB_iff c).1 hc with rfl | rfl | rfl | rfl <;>
        simp [lexLt, charToDigit, ih]

theorem lexLtB_eq_map_toNat : ∀ xs ys : List Bool,
    lexLtB xs ys = lexLt (xs.map Bool.toNat) (ys.map Bool.toNat)
  | [], [] => rfl
  | [], _ :: _ => rfl
  | _ :: _, [] => rfl
  | a :: as, c :: cs => by
      have ih := lexLtB_eq_map_toNat as cs
      cases a <;> cases c <;> simp [lexLtB, lexLt, ih]

theorem foldl2_toBits : ∀ (ds : List Nat) (a : Nat), (∀ d ∈ ds, d < 4) →
    List.foldl (fun r d => 2 * r + d) a ((toBits ds).map Bool.toNat)
      = List.foldl (fun r d => 4 * r + d) a ds
  | [], _, _ => rfl
  | d :: ds, a, h => by
      have hd : d < 4 := h d (by simp)
      have ih := foldl2_toBits ds (2 * (2 * a + (d.testBit 1).toNat) + (d.testBit 0).toNat)
        (fun x hx => h x (by simp [hx]))
      have hstep : 2 * (2 * a + (d.testBit 1).toNat) + (d.testBit 0).toNat = 4 * a + d := by
        have hcases : d = 0 ∨ d = 1 ∨ d = 2 ∨ d = 3 := by omega
        rcases hcases with rfl | rfl | rfl | rfl <;>
          simp [show (0:Nat).testBit 1 = false from by decide,
            show (0:Nat).testBit 0 = false from by decide,
            show (1:Nat).testBit 1 = false from by decide,
            show (1:Nat).testBit 0 = true from by decide,
            show (2:Nat).testBit 1 = true from by decide,
            show (2:Nat).testBit 0 = false from by decide,
            show (3:Nat).testBit 1 = true from by decide,
            show (3:Nat).testBit 0 = true from by decide] <;> omega
      rw [toBits_cons]
      simp only [List.map_cons, List.foldl_cons]
      rw [← hstep, ih]

theorem packB2_toBits (ds : List Nat) (h : ∀ d ∈ ds, d < 4) :
    packB 2 ((toBits ds).map Bool.toNat) = packB 4 ds :=
  foldl2_toBits ds 0 h

theorem toBits_length : ∀ ds : List Nat, (toBits ds).length = 2 * ds.length
  | [] => rfl
  | d :: ds => by
      rw [toBits_cons]
      simp [toBits_length ds]
      omega

theorem lexLtB_irrefl : ∀ l : List Bool, lexLtB l l = false
  | [] => rfl
  | a :: l => by simp [lexLtB, lexLtB_irrefl l]

theorem lexLtB_asymm : ∀ a b : List Bool, lexLtB a b = true → lexLtB b a = false
  | [], [], h => by simp [lexLtB] at h
  | [], _ :: _, _ => rfl
  | _ :: _, [], h => by simp [lexLtB] at h
  | x :: xs, y :: ys, h => by
      by_cases hxy : x = y
      · subst hxy
        simp only [lexLtB, if_pos rfl] at h ⊢
        exact lexLtB_asymm xs ys h
      · have hyx : ¬ y = x := fun hc => hxy hc.symm
        simp only [lexLtB, if_neg hxy] at h
        simp only [lexLtB, if_neg hyx]
        cases x <;> cases y <;> simp_all

theorem flatten_chunkPairs : ∀ l : List Bool, l.length % 2 = 0 →
    ((chunkPairs l).map (fun p => [p.1, p.2])).flatten = l
  | [], _ => rfl
  | [_], h => by simp at h
  | a :: b :: t, h => by
      have ht : t.length % 2 = 0 := by simp at h; omega
      have := flatten_chunkPairs t ht
      simp [chunkPairs, this]

theorem chunkPairs_of_flatten : ∀ ps : List (Bool × Bool),
    chunkPairs ((ps.map (fun p => [p.1, p.2])).flatten) = ps
  | [] => rfl
  | p :: ps => by simp [chunkPairs, chunkPairs_of_flatten ps]

theorem vecRc_involution (l : List Bool) (h : l.length % 2 = 0) : vecRc (vecRc l) = l := by
  have hchunk : chunkPairs (vecRc l)
      = (chunkPairs l).reverse.map (fun p => (!p.1, !p.2)) := by
    have hm : (chunkPairs l).reverse.map (fun p : Bool × Bool => [!p.1, !p.2])
        = ((chunkPairs l).reverse.map (fun p => (!p.1, !p.2))).map (fun p => [p.1, p.2]) := by
      rw [List.map_map]; rfl
    show chunkPairs (((chunkPairs l).reverse.map (fun p => [!p.1, !p.2])).flatten) = _
    rw [hm, chunkPairs_of_flatten]
  show (((chunkPairs (vecRc l)).reverse.map (fun p => [!p.1, !p.2])).flatten) = l
  rw [hchunk, ← List.map_reverse, List.reverse_reverse, List.map_map]
  have hcomp : (chunkPairs l).map
      ((fun p : Bool × Bool => [!p.1, !p.2]) ∘ (fun p : Bool × Bool => (!p.1, !p.2)))
      = (chunkPairs l).map (fun p => [p.1, p.2]) :=
    List.map_congr_left (fun p _ => by simp [Function.comp])
  rw [hcomp]
  exact flatten_chunkPairs l h

theorem succF_pack (w k d c : Nat) (ds : List Nat)
    (hw : 2 * k + 2 ≤ w) (hd : d < 4) (hds : ∀ x ∈ ds, x < 4) (hlen : ds.length + 1 = k) :
    succF w k (packB 4 (d :: ds)) c = some (packB 4 (ds ++ [charToDigit c])) := by
  have hklt : 2 * k < w := by omega
  have hpds : packB 4 ds < 4 ^ ds.length := packB_lt 4 ds hds
  have hcd : charToDigit c < 4 := charToDigit_lt c
  have h4k1 : (4:Nat) ^ (k + 1) ≤ 2 ^ w := by
    have : (4:Nat) ^ (k + 1) = 2 ^ (2 * (k + 1)) := by
      rw [show (4:Nat) = 2 ^ 2 by norm_num, ← pow_mul]
    rw [this]
    exact Nat.pow_le_pow_right (by norm_num) (by omega)
  have hcons : packB 4 (d :: ds) = d * 4 ^ ds.length + packB 4 ds := packB_cons 4 d ds
  have h4kds : (4:Nat) ^ k = 4 * 4 ^ ds.length := by
    rw [← hlen, pow_succ]; ring
  have hvlt : packB 4 (d :: ds) * 4 < 2 ^ w := by
    have h1 : packB 4 (d :: ds) < 4 ^ k := by
      have := packB_lt 4 (d :: ds) (by
        intro x hx
        rcases List.mem_cons.1 hx with rfl | hx
        · exact hd
        · exact hds x hx)
      simpa [hlen] using this
    have h2 : packB 4 (d :: ds) * 4 < 4 ^ (k + 1) := by
      rw [pow_succ]
      exact mul_lt_mul_of_pos_right h1 (by norm_num)
    omega
  have hr : 4 * packB 4 ds + charToDigit c < 4 ^ k := by
    rw [h4kds]; omega
  unfold succF
  rw [if_pos hklt]
  simp only [Nat.mod_eq_of_lt hvlt]
  have hv : packB 4 (d :: ds) * 4 + charToDigit c
      = d * 4 ^ k + (4 * packB 4 ds + charToDigit c) := by
    rw [hcons, h4kds]; ring
  have hmod : (d * 4 ^ k + (4 * packB 4 ds + charToDigit c)) % 4 ^ k
      = 4 * packB 4 ds + charToDigit c := by
    rw [mul_comm, Nat.mul_add_mod, Nat.mod_eq_of_lt hr]
  have hdivlt : d * 4 ^ k + (4 * packB 4 ds + charToDigit c) < 4 ^ (k + 1) := by
    have : d * 4 ^ k + (4 * packB 4 ds + charToDigit c) < (d + 1) * 4 ^ k := by
      have h0 : (d + 1) * 4 ^ k = d * 4 ^ k + 4 ^ k := by ring
      omega
    have h1 : (d + 1) * 4 ^ k ≤ 4 ^ (k + 1) := by
      rw [pow_succ, mul_comm (4 ^ k) 4]
      exact Nat.mul_le_mul_right _ (by omega)
    omega
  have hdiv : (d * 4 ^ k + (4 * packB 4 ds + charToDigit c)) / 4 ^ (k + 1) = 0 :=
    Nat.div_eq_of_lt hdivlt
  rw [hv, hmod, hdiv]
  rw [packB_concat]
  simp

theorem mem_filterNoSuperstring (w k : Nat) (all : List Nat) :
    ∀ (l ws : List Nat), filterNoSuperstring w k all l = some ws →
    ∀ u, (u ∈ ws ↔ u ∈ l ∧ hasSuperstringF w k u all = some false)
  | [], ws, h => by
      have h' : some ([] : List Nat) = some ws := h
      cases h'
      simp
  | x :: xs, ws, h => by
      simp only [filterNoSuperstring] at h
      rcases hb : hasSuperstringF w k x all with _ | b <;> rw [hb] at h
      · simp at h
      rcases hr : filterNoSuperstring w k all xs with _ | rest <;> rw [hr] at h
      · simp at h
      have ih := mem_filterNoSuperstring w k all xs rest hr
      intro u
      cases b
      · have hws : x :: rest = ws := by simpa using h
        rw [← hws]
        constructor
        · intro hu
          rcases List.mem_cons.1 hu with rfl | hu
          · exact ⟨by simp, hb⟩
          · have := (ih u).1 hu
            exact ⟨by simp [this.1], this.2⟩
        · intro ⟨hmem, hss⟩
          rcases List.mem_cons.1 hmem with rfl | hmem
          · simp
          · exact List.mem_cons_of_mem _ ((ih u).2 ⟨hmem, hss⟩)
      · have hws : rest = ws := by simpa using h
        rw [← hws]
        constructor
        · intro hu
          have := (ih u).1 hu
          exact ⟨by simp [this.1], this.2⟩
        · intro ⟨hmem, hss⟩
          rcases List.mem_cons.1 hmem with rfl | hmem
          · rw [hb] at hss
            cases hss
          · exact (ih u).2 ⟨hmem, hss⟩

theorem verdictOf_ok_iff (allow : Bool) (su st uniq tc : Nat) :
    verdictOf allow su st uniq tc = .ok () ↔ su = 0 ∧ st = 0 ∧ (allow = true ∨ uniq ≤ tc) := by
  unfold verdictOf
  by_cases h : su = 0 ∧ st = 0
  · obtain ⟨h1, h2⟩ := h
    subst h1; subst h2
    rw [if_pos ⟨rfl, rfl⟩]
    rcases hcmp : compare uniq tc with _ | _ | _
    · have := Nat.compare_eq_lt.1 hcmp
      simp [show uniq ≤ tc from by omega]
    · have := Nat.compare_eq_eq.1 hcmp
      simp [show uniq ≤ tc from by omega]
    · have := Nat.compare_eq_gt.1 hcmp
      cases allow
      · simp [show ¬ uniq ≤ tc from by omega]
      · simp
  · rw [if_neg h]
    constructor
    · intro hc
      cases hc
    · intro hc
      exact absurd ⟨hc.1, hc.2.1⟩ h

theorem packDna_err : ∀ (s : List Nat) (acc : Nat), (∃ c ∈ s, isDnaB c = false) →
    packDna acc s = .error .invalidCharacter
  | [], _, h => by simp at h
  | c :: cs, acc, h => by
      by_cases hc : isDnaB c
      · have hcs : ∃ d ∈ cs, isDnaB d = false := by
          obtain ⟨d, hd, hdf⟩ := h
          rcases List.mem_cons.1 hd with rfl | hd
          · rw [hc] at hdf; cases hdf
          · exact ⟨d, hd, hdf⟩
        simp [packDna, hc, packDna_err cs _ hcs]
      · simp [packDna, hc]

theorem packBits_err : ∀ (s : List Nat) (acc : List Bool), (∃ c ∈ s, isDnaB c = false) →
    packBits acc s = .error .invalidCharacter
  | [], _, h => by simp at h
  | c :: cs, acc, h => by
      by_cases hc : isDnaB c
      · have hcs : ∃ d ∈ cs, isDnaB d = false := by
          obtain ⟨d, hd, hdf⟩ := h
          rcases List.mem_cons.1 hd with rfl | hd
          · rw [hc] at hdf; cases hdf
          · exact ⟨d, hd, hdf⟩
        simp [packBits, hc, packBits_err cs _ hcs]
      · simp [packBits, hc]

theorem packBits_total : ∀ (s : List Nat) (acc : List Bool), (∀ c ∈ s, isDnaB c = true) →
    ∃ bs, packBits acc s = .ok bs
  | [], acc, _ => ⟨acc, rfl⟩
  | c :: cs, acc, h => by
      have hc : isDnaB c = true := h c (by simp)
      obtain ⟨bs, hbs⟩ := packBits_total cs
        (acc ++ [(charToDigit c).testBit 1, (charToDigit c).testBit 0])
        (fun d hd => h d (by simp [hd]))
      refine ⟨bs, ?_⟩
      have heq : packBits acc (c :: cs)
          = packBits (acc ++ [(charToDigit c).testBit 1, (charToDigit c).testBit 0]) cs := by
        simp only [packBits, hc, if_true]
      rw [heq, hbs]

theorem runP_gfaS_empty (k : Nat) : ∀ (fuel : Nat) (m : PM), m.state = PState.gfaS →
    runP k fuel m [] = none
  | 0, _, _ => rfl
  | fuel + 1, m, hm => by
      have hne : ¬ m.state = PState.eof := by rw [hm]; intro hc; cases hc
      have hstep : processByte k m none = (m, none) := by
        simp [processByte, hm]
      simp only [runP, if_neg hne, hstep]
      rw [runP_gfaS_empty k fuel m hm]
      rfl

theorem mergeCountsAux_irrel (ws : List Nat) : ∀ (f1 : Nat) (us ts : List Nat) (f2 : Nat),
    us.length + ts.length ≤ f1 → us.length + ts.length ≤ f2 →
    mergeCountsAux ws f1 us ts = mergeCountsAux ws f2 us ts
  | 0, us, ts, f2, h1, _ => by
      have hus : us = [] := by
        cases us with
        | nil => rfl
        | cons x xs => simp at h1
      subst hus
      cases f2 with
      | zero => rfl
      | succ f2 => rfl
  | f1 + 1, us, ts, f2, h1, h2 => by
      cases us with
      | nil =>
          cases f2 with
          | zero => rfl
          | succ f2 => rfl
      | cons u us' =>
          cases ts with
          | nil =>
              cases f2 with
              | zero => simp at h2
              | succ f2 => rfl
          | cons t ts' =>
              cases f2 with
              | zero => simp at h2
              | succ f2 =>
                  simp only [List.length_cons] at h1 h2
                  simp only [mergeCountsAux]
                  rcases hc : compare u t with _ | _ | _
                  · rw [mergeCountsAux_irrel ws f1 us' (t :: ts') f2
                      (by simp; omega) (by simp; omega)]
                  · rw [mergeCountsAux_irrel ws f1 us' ts' f2 (by omega) (by omega)]
                  · rw [mergeCountsAux_irrel ws f1 (u :: us') ts' f2
                      (by simp; omega) (by simp; omega)]

theorem mergeCountsAux_step (ws : List Nat) (f u t : Nat) (us ts : List Nat) :
    mergeCountsAux ws (f + 1) (u :: us) (t :: ts)
      = match compare u t with
        | .lt =>
            let r := mergeCountsAux ws f us (t :: ts)
            if ws.contains u then r else (r.1 + 1, r.2)
        | .eq => mergeCountsAux ws f us ts
        | .gt =>
            let r := mergeCountsAux ws f (u :: us) ts
            (r.1, r.2 + 1) := rfl

theorem mergeCounts_cons (ws us ts : List Nat) (u t : Nat) :
    mergeCounts ws (u :: us) (t :: ts)
      = match compare u t with
        | .lt =>
            let r := mergeCounts ws us (t :: ts)
            if ws.contains u then r else (r.1 + 1, r.2)
        | .eq => mergeCounts ws us ts
        | .gt =>
            let r := mergeCounts ws (u :: us) ts
            (r.1, r.2 + 1) := by
  have hlen : (u :: us).length + (t :: ts).length = us.length + ts.length + 1 + 1 := by
    simp only [List.length_cons]
    omega
  unfold mergeCounts
  rw [hlen, mergeCountsAux_step]
  rcases hc : compare u t with _ | _ | _ <;> simp only
  · rw [mergeCountsAux_irrel ws (us.length + ts.length + 1) us (t :: ts)
      (us.length + (t :: ts).length)
      (by simp only [List.length_cons]; omega) (by simp only [List.length_cons]; omega)]
  · rw [mergeCountsAux_irrel ws (us.length + ts.length + 1) us ts
      (us.length + ts.length) (by omega) (by omega)]
  · rw [mergeCountsAux_irrel ws (us.length + ts.length + 1) (u :: us) ts
      ((u :: us).length + ts.length)
      (by simp only [List.length_cons]; omega) (by simp only [List.length_cons]; omega)]

/-! ## The claims -/

/-- Claim C4 (code bug): on a stream that ends right after the `S` of a GFA
record — before the first tab of the header — `next()` never returns: the
`State::GfaS` arm has no end-of-stream transition before the first tab, so the
iterator re-reads end-of-stream forever.  Formally, for every fuel bound the
parser run on the one-byte stream `"S"` fails to terminate, contradicting the
claim that end-of-stream inside the GFA header always transitions to `Eof`.
(End-of-stream after the first tab is handled: `"S\t"` does reach `Eof`.) -/
theorem c4_gfa_truncated_header_diverges (k fuel : Nat) :
    runP k fuel initPM [83] = none := by
  cases fuel with
  | zero => rfl
  | succ fuel =>
      have hs : processByte k initPM (some 83)
          = ({ initPM with state := .gfaS, format := .gfa }, none) := by
        simp [processByte, initPM]
      have hne : ¬ initPM.state = PState.eof := by intro hc; cases hc
      simp only [runP, if_neg hne, hs]
      rw [runP_gfaS_empty k fuel _ rfl]
      rfl

/-- Witness for C4 at concrete fuel. -/
theorem c4_gfa_truncated_header_diverges_witness : runP 3 5 initPM [83] = none :=
  c4_gfa_truncated_header_diverges 3 5

/-- Claim C5 (code bug): `BitPackedKmer::successor` masks correctly only when
`2K` is strictly below the backing width.  First conjunct: at `2K = w` (here
`K = 4`, `u8`, a combination `main` dispatches) the mask computation
`3 << K*2` shifts by the full width — an arithmetic overflow, so
`successor("AAAA", 'C')` aborts instead of returning `AAAC`.  Second conjunct:
whenever `2K + 2 ≤ w` the claimed behaviour does hold — the successor of the
k-mer with digits `d :: ds` by character `c` is the k-mer with digits
`ds ++ [code of c]`, with all bits beyond `2K` zero. -/
theorem c5_successor_masking :
    succF 8 4 (packBytes [65, 65, 65, 65]) 67 = none
    ∧ ∀ (w k d c : Nat) (ds : List Nat), 2 * k + 2 ≤ w → d < 4 → (∀ x ∈ ds, x < 4) →
        ds.length + 1 = k →
        succF w k (packB 4 (d :: ds)) c = some (packB 4 (ds ++ [charToDigit c])) :=
  ⟨by decide, fun w k d c ds hw hd hds hlen => succF_pack w k d c ds hw hd hds hlen⟩

/-- Witness for C5's positive conjunct: `successor(GGG, C) = GGC` for `K = 3`
over `u8` (digits 2,2,2 and 2,2,1). -/
theorem c5_successor_masking_witness :
    succF 8 3 (packB 4 [2, 2, 2]) 67 = some (packB 4 ([2, 2] ++ [charToDigit 67])) :=
  c5_successor_masking.2 8 3 2 67 [2, 2] (by decide) (by decide) (by decide) (by decide)

/-- Claim C7 (confirmed): `reverse_complement` is an involution on every valid
k-mer of either representation — fixed-width (`2K` bits inside a `w`-bit word)
and variable-width (an even-length bit sequence); palindromic k-mers are just
the fixed points and need no special case. -/
theorem c7_reverse_complement_involution :
    (∀ w k n : Nat, 2 * k ≤ w → n < 4 ^ k → rcF w k (rcF w k n) = n)
    ∧ (∀ l : List Bool, l.length % 2 = 0 → vecRc (vecRc l) = l) :=
  ⟨fun w k n hw hn => rcF_rcF w k n hw hn, fun l h => vecRc_involution l h⟩

/-- Witness for C7 on the palindromic 4-mer `ACGT` (packed 27, its own reverse
complement) and on the bit sequence of `G`. -/
theorem c7_reverse_complement_involution_witness :
    rcF 8 4 (rcF 8 4 27) = 27 ∧ vecRc (vecRc [true, false]) = [true, false] :=
  ⟨c7_reverse_complement_involution.1 8 4 27 (by decide) (by decide),
   c7_reverse_complement_involution.2 [true, false] (by decide)⟩

/-- Claim C9 (confirmed): decoding a window and encoding it back is the
identity, for both representations: whenever `from_iter` succeeds on a byte
window, `encode_to_string` (the `Display` implementation) returns exactly that
window. -/
theorem c9_decode_encode_roundtrip :
    (∀ (k w : Nat) (s : List Nat) (x : Nat),
      fixedFromIter k w s = .ok x → displayFixed w k x = s)
    ∧ (∀ (s : List Nat) (xb : List Bool),
      vectorFromIter s = .ok xb → displayVector xb = s) := by
  constructor
  · intro k w s x h
    obtain ⟨hw, hlen, hchars, hx⟩ := fixedFromIter_ok k w s x h
    rw [hx, packBytes,
      displayFixed_pack w k (s.map charToDigit) hw (charToDigit_lt_all s) (by simp [hlen])]
    exact map_roundtrip s hchars
  · intro s xb h
    obtain ⟨hchars, hxb⟩ := vectorFromIter_ok s xb h
    rw [hxb, displayVector_toBits (s.map charToDigit) (charToDigit_lt_all s)]
    exact map_roundtrip s hchars

/-- Witness for C9 on `ACGT` (fixed, `K = 4` over `u8`) and on `GT` (vector). -/
theorem c9_decode_encode_roundtrip_witness :
    displayFixed 8 4 27 = [65, 67, 71, 84]
    ∧ displayVector [true, false, true, true] = [71, 84] :=
  ⟨c9_decode_encode_roundtrip.1 4 8 [65, 67, 71, 84] 27 (by decide),
   c9_decode_encode_roundtrip.2 [71, 84] [true, false, true, true] (by decide)⟩

/-- Claim C10 counterexample: the variable-width `from_iter` performs no length
check at all — decoding the length-2 window `"AA"` in a run with `K = 3`
succeeds (with a 4-bit k-mer) instead of failing with a size-mismatch
condition. -/
theorem c10_counterexample :
    vectorFromIter [65, 65] = .ok [false, false, false, false]
    ∧ [65, 65].length ≠ 3 :=
  ⟨by decide, by decide⟩

/-- Claim C10 (corrected): the fixed-width `from_iter` fails with
`SizeMismatch` on a window whose length differs from `K` and with
`InvalidCharacter` when some byte is not uppercase ACGT; the variable-width
`from_iter` fails with `InvalidCharacter` on a non-ACGT byte but has no size
check — on an all-ACGT window of any length it succeeds. -/
theorem c10_decode_errors :
    (∀ (k w : Nat) (s : List Nat), 2 * k ≤ w → s.length ≠ k →
      fixedFromIter k w s = .error .sizeMismatch)
    ∧ (∀ (k w : Nat) (s : List Nat), 2 * k ≤ w → s.length = k →
      (∃ c ∈ s, isDnaB c = false) → fixedFromIter k w s = .error .invalidCharacter)
    ∧ (∀ s : List Nat, (∃ c ∈ s, isDnaB c = false) →
      vectorFromIter s = .error .invalidCharacter)
    ∧ (∀ s : List Nat, (∀ c ∈ s, isDnaB c = true) →
      ∃ bs, vectorFromIter s = .ok bs) := by
  refine ⟨?_, ?_, ?_, ?_⟩
  · intro k w s hw hlen
    simp [fixedFromIter, hw, hlen]
  · intro k w s hw hlen hbad
    simp only [fixedFromIter, if_pos hw, if_pos hlen]
    exact packDna_err s 0 hbad
  · intro s hbad
    exact packBits_err s [] hbad
  · intro s hgood
    exact packBits_total s [] hgood

/-- Witness for C10 on concrete windows with `K = 3` over `u8`: a short
window, a window with a `B`, a vector window with a `B`, and a valid length-2
vector window. -/
theorem c10_decode_errors_witness :
    fixedFromIter 3 8 [65, 65] = .error .sizeMismatch
    ∧ fixedFromIter 3 8 [65, 66, 65] = .error .invalidCharacter
    ∧ vectorFromIter [65, 66] = .error .invalidCharacter
    ∧ ∃ bs, vectorFromIter [65, 67] = .ok bs :=
  ⟨c10_decode_errors.1 3 8 [65, 65] (by decide) (by decide),
   c10_decode_errors.2.1 3 8 [65, 66, 65] (by decide) (by decide) ⟨66, by decide, by decide⟩,
   c10_decode_errors.2.2.1 [65, 66] ⟨66, by decide, by decide⟩,
   c10_decode_errors.2.2.2 [65, 67] (by decide)⟩

/-- Claim C3 counterexample: the parser run on the two-record FASTA stream
`">b\nAAAC\n>\nCAGT\n"` with `K = 3` emits exactly `AAA, AAC, CAG, AGT`
(packed 0, 1, 18, 11).  The k-mer `ACC` (packed 5) that would bridge the two
records if the window survived the `>` byte is not emitted, and the residual
window content is flushed into the character counter (8 = 2 emissions + 2
residual per record): the sliding window IS cleared at a new header, so
consecutive FASTA records are not concatenated. -/
theorem c3_counterexample :
    runP 3 64 initPM inTwoRecords
      = some ([0, 1, 18, 11],
          { state := .eof, format := .fa, buffer := [], seqCount := 2, charCount := 8 })
    ∧ packBytes [65, 67, 67] ∉ [0, 1, 18, 11] :=
  ⟨by decide, by decide⟩

/-- Claim C3 (corrected): inside a FASTA sequence body a `>` byte transitions
to the header-skipping state `FaId` and the sliding window is cleared on the
way out (its residual length added to the character counter); the record
counter is not incremented at the `>` itself but only when the header's
terminating newline is read in `FaId`. -/
theorem c3_fasta_header_transition (k : Nat) :
    (∀ m : PM, m.state = PState.faSequence →
      processByte k m (some 62)
        = ({ m with
              state := PState.faId
              buffer := []
              charCount := m.charCount + m.buffer.length }, none))
    ∧ (∀ m : PM, m.state = PState.faId →
      processByte k m (some 10)
        = ({ m with state := PState.faSequence, seqCount := m.seqCount + 1 }, none)) := by
  constructor
  · intro m hm
    simp [processByte, hm, upperByte, flushTo]
  · intro m hm
    simp [processByte, hm]

/-- Witness for C3 on a concrete machine mid-sequence with window `AC`. -/
theorem c3_fasta_header_transition_witness :
    processByte 3 (⟨.faSequence, .fa, [65, 67], 1, 4⟩ : PM) (some 62)
      = ((⟨.faId, .fa, [], 1, 6⟩ : PM), none)
    ∧ processByte 3 (⟨.faId, .fa, [], 1, 6⟩ : PM) (some 10)
      = ((⟨.faSequence, .fa, [], 2, 6⟩ : PM), none) := by
  constructor
  · have h := (c3_fasta_header_transition 3).1 (⟨.faSequence, .fa, [65, 67], 1, 4⟩ : PM) rfl
    simpa using h
  · have h := (c3_fasta_header_transition 3).2 (⟨.faId, .fa, [], 1, 6⟩ : PM) rfl
    simpa using h

/-- Claim C2 counterexample: a full error-tolerant run (`K = 3` over `u8`) on
reference `">a\nAACA"` (canonical set `{AAC, ACA}` = `{1, 4}`) against test
`">a\nACA"` (canonical set `{4}`).  The reference-only k-mer `AAC` HAS a
superstring in the reference set (its successor-extension `ACA` is present),
yet the run counts it as superfluous (`su = 1`) and the verdict is `Mismatch`
— the opposite of the claim, which would treat it as not-missing and succeed.
The code instead exempts exactly the k-mers with NO superstring. -/
theorem c2_counterexample :
    hasSuperstringF 8 3 (packBytes [65, 65, 67]) [1, 4] = some true
    ∧ canonicalKmerList 8 3 64 inAACA = some [1, 4]
    ∧ compareKmerSetsF 8 3 64 false true inAACA inACA
      = some ⟨.error .mismatch, 1, 0, 2, 1⟩ :=
  ⟨by decide, by decide, by decide⟩

/-- Claim C2 (corrected): during the merge, a reference-only k-mer (head
comparison `Less`) is exempted from the superfluous count exactly when it is
in the `unitig_kmers_without_superstrings` list, i.e. exactly when it belongs
to the reference set and `has_superstring` returns `false` for it; a
reference-only k-mer with a superstring is counted toward the mismatch
verdict. -/
theorem c2_superstring_exemption (w k : Nat) (refL ws us ts : List Nat) (u t : Nat)
    (hf : filterNoSuperstring w k refL refL = some ws)
    (hlt : compare u t = Ordering.lt) :
    (mergeCounts ws (u :: us) (t :: ts)).1
      = (mergeCounts ws us (t :: ts)).1
        + (if u ∈ refL ∧ hasSuperstringF w k u refL = some false then 0 else 1) := by
  rw [mergeCounts_cons, hlt]
  by_cases hcond : u ∈ refL ∧ hasSuperstringF w k u refL = some false
  · have hmem : u ∈ ws := (mem_filterNoSuperstring w k refL refL ws hf u).2 hcond
    simp [hmem, hcond]
  · have hmem : u ∉ ws := fun hc => hcond ((mem_filterNoSuperstring w k refL refL ws hf u).1 hc)
    simp [hmem, hcond]

/-- Witness for C2 at the concrete merge step of the counterexample run. -/
theorem c2_superstring_exemption_witness :
    (mergeCounts [] [1, 4] [4]).1
      = (mergeCounts [] [4] [4]).1
        + (if 1 ∈ [1, 4] ∧ hasSuperstringF 8 3 1 [1, 4] = some false then 0 else 1) :=
  c2_superstring_exemption 8 3 [1, 4] [] [4] [] 1 4 (by decide) (by decide)

/-- Claim C6 (confirmed): for two k-mers of the same representation variant
and the same `K`, the bit-for-bit order on the packed representation (numeric
order of the fixed-width word; lexicographic bit order of the backing bit
sequence) holds exactly when the decoded character string of the first is
lexicographically smaller than that of the second. -/
theorem c6_packed_order_lex :
    (∀ (k w : Nat) (s t : List Nat) (x y : Nat),
      fixedFromIter k w s = .ok x → fixedFromIter k w t = .ok y →
      (x < y ↔ lexLt (displayFixed w k x) (displayFixed w k y) = true))
    ∧ (∀ (s t : List Nat) (xb yb : List Bool), s.length = t.length →
      vectorFromIter s = .ok xb → vectorFromIter t = .ok yb →
      (lexLtB xb yb = true ↔ lexLt (displayVector xb) (displayVector yb) = true)) := by
  constructor
  · intro k w s t x y hx hy
    obtain ⟨hw, hslen, hschars, hxval⟩ := fixedFromIter_ok k w s x hx
    obtain ⟨_, htlen, htchars, hyval⟩ := fixedFromIter_ok k w t y hy
    have hdx : displayFixed w k x = s := by
      rw [hxval, packBytes,
        displayFixed_pack w k (s.map charToDigit) hw (charToDigit_lt_all s) (by simp [hslen])]
      exact map_roundtrip s hschars
    have hdy : displayFixed w k y = t := by
      rw [hyval, packBytes,
        displayFixed_pack w k (t.map charToDigit) hw (charToDigit_lt_all t) (by simp [htlen])]
      exact map_roundtrip t htchars
    rw [hdx, hdy, hxval, hyval, packBytes, packBytes]
    rw [packB_lt_iff 4 (s.map charToDigit) (t.map charToDigit)
      (by simp [hslen, htlen]) (charToDigit_lt_all s) (charToDigit_lt_all t)]
    rw [lexLt_map_charToDigit s t hschars htchars]
  · intro s t xb yb hlen hx hy
    obtain ⟨hschars, hxval⟩ := vectorFromIter_ok s xb hx
    obtain ⟨htchars, hyval⟩ := vectorFromIter_ok t yb hy
    have hdx : displayVector xb = s := by
      rw [hxval, displayVector_toBits (s.map charToDigit) (charToDigit_lt_all s)]
      exact map_roundtrip s hschars
    have hdy : displayVector yb = t := by
      rw [hyval, displayVector_toBits (t.map charToDigit) (charToDigit_lt_all t)]
      exact map_roundtrip t htchars
    have hblt : ∀ u : List Bool, ∀ d ∈ u.map Bool.toNat, d < 2 := by
      intro u d hd
      rcases List.mem_map.1 hd with ⟨b, _, rfl⟩
      cases b <;> decide
    have hlens : (xb.map Bool.toNat).length = (yb.map Bool.toNat).length := by
      rw [hxval, hyval]
      simp [toBits_length, hlen]
    rw [hdx, hdy, lexLtB_eq_map_toNat]
    rw [← packB_lt_iff 2 (xb.map Bool.toNat) (yb.map Bool.toNat) hlens (hblt xb) (hblt yb)]
    rw [hxval, hyval, packB2_toBits (s.map charToDigit) (charToDigit_lt_all s),
      packB2_toBits (t.map charToDigit) (charToDigit_lt_all t)]
    rw [packB_lt_iff 4 (s.map charToDigit) (t.map charToDigit)
      (by simp [hlen]) (charToDigit_lt_all s) (charToDigit_lt_all t)]
    rw [lexLt_map_charToDigit s t hschars htchars]

/-- Witness for C6 on `AC` versus `CA` (`K = 2`), in both representations. -/
theorem c6_packed_order_lex_witness :
    ((1 : Nat) < 4 ↔ lexLt (displayFixed 8 2 1) (displayFixed 8 2 4) = true)
    ∧ (lexLtB [false, false, false, true] [false, true, false, false] = true
        ↔ lexLt (displayVector [false, false, false, true])
            (displayVector [false, true, false, false]) = true) :=
  ⟨c6_packed_order_lex.1 2 8 [65, 67] [67, 65] 1 4 (by decide) (by decide),
   c6_packed_order_lex.2 [65, 67] [67, 65] [false, false, false, true]
     [false, true, false, false] (by decide) (by decide) (by decide)⟩

/-- Claim C8 (confirmed): `canonical` returns the minimum of the k-mer and its
reverse complement under the representation's total order, is idempotent, and
always returns one of the two — for the fixed-width variant (numeric order)
and the vector variant (lexicographic bit order; minimality phrased as: the
result is one of the pair and neither of the pair is strictly below it). -/
theorem c8_canonical_min_idempotent :
    (∀ w k n : Nat, 2 * k ≤ w → n < 4 ^ k →
      canonF w k n = min n (rcF w k n)
      ∧ canonF w k (canonF w k n) = canonF w k n
      ∧ (canonF w k n = n ∨ canonF w k n = rcF w k n))
    ∧ (∀ l : List Bool, l.length % 2 = 0 →
      (canonV l = l ∨ canonV l = vecRc l)
      ∧ canonV (canonV l) = canonV l
      ∧ lexLtB l (canonV l) = false ∧ lexLtB (vecRc l) (canonV l) = false) := by
  constructor
  · intro w k n hw hn
    have hrc := rcF_rcF w k n hw hn
    by_cases h : rcF w k n < n
    · have hc : canonF w k n = rcF w k n := by simp [canonF, h]
      refine ⟨?_, ?_, Or.inr hc⟩
      · rw [hc, Nat.min_eq_right (Nat.le_of_lt h)]
      · rw [hc]
        have : ¬ rcF w k (rcF w k n) < rcF w k n := by rw [hrc]; omega
        simp [canonF, this]
    · have hc : canonF w k n = n := by simp [canonF, h]
      refine ⟨?_, ?_, Or.inl hc⟩
      · rw [hc, Nat.min_eq_left (by omega)]
      · rw [hc, hc]
  · intro l hl
    have hinv := vecRc_involution l hl
    by_cases h : lexLtB (vecRc l) l = true
    · have hc : canonV l = vecRc l := by simp [canonV, h]
      refine ⟨Or.inr hc, ?_, ?_, ?_⟩
      · rw [hc]
        have hnot : lexLtB (vecRc (vecRc l)) (vecRc l) = false := by
          rw [hinv]
          exact lexLtB_asymm _ _ h
        simp [canonV, hnot]
      · rw [hc]
        exact lexLtB_asymm _ _ h
      · rw [hc]
        exact lexLtB_irrefl _
    · have hfalse : lexLtB (vecRc l) l = false := by
        cases hx : lexLtB (vecRc l) l
        · rfl
        · exact absurd hx h
      have hc : canonV l = l := by simp [canonV, hfalse]
      refine ⟨Or.inl hc, ?_, ?_, ?_⟩
      · rw [hc, hc]
      · rw [hc]
        exact lexLtB_irrefl _
      · rw [hc]
        exact hfalse

/-- Witness for C8 on the fixed-width 3-mer `AAC` (packed 1) and the vector
bit sequence of `G`. -/
theorem c8_canonical_min_idempotent_witness :
    (canonF 8 3 1 = min 1 (rcF 8 3 1)
      ∧ canonF 8 3 (canonF 8 3 1) = canonF 8 3 1
      ∧ (canonF 8 3 1 = 1 ∨ canonF 8 3 1 = rcF 8 3 1))
    ∧ ((canonV [true, false] = [true, false] ∨ canonV [true, false] = vecRc [true, false])
      ∧ canonV (canonV [true, false]) = canonV [true, false]
      ∧ lexLtB [true, false] (canonV [true, false]) = false
      ∧ lexLtB (vecRc [true, false]) (canonV [true, false]) = false) :=
  ⟨c8_canonical_min_idempotent.1 8 3 1 (by decide) (by decide),
   c8_canonical_min_idempotent.2 [true, false] (by decide)⟩

/-- Claim C1 counterexample: with `K = 3`, reference `">a\nAAAA"` and test
`">a\nAAA"` have the same canonical deduplicated k-mer set `{AAA}` — neither
stream has a k-mer the other lacks, and indeed the merge counts no superfluous
k-mer on either side — yet `compare_kmer_sets` (without error tolerance)
returns `Mismatch`: the reference contains the k-mer `AAA` twice, so the
expected count `characters − records·(K−1) = 2` exceeds the test count `1`,
and the final count comparison turns this into a failure. -/
theorem c1_counterexample :
    canonicalKmerList 8 3 64 inAAAA = some [0]
    ∧ canonicalKmerList 8 3 64 inAAA = some [0]
    ∧ compareKmerSetsF 8 3 64 false false inAAAA inAAA
      = some ⟨.error .mismatch, 0, 0, 2, 1⟩ :=
  ⟨by decide, by decide, by decide⟩

/-- Claim C1 (corrected): a (verifying) run of `compare_kmer_sets` that
completes returns `Ok` exactly when the merge counted no unresolved
reference-only k-mer and no test-only k-mer AND, additionally, either
error-tolerant mode is enabled or the expected unique reference k-mer count
(`reference characters − reference records · (K−1)`) does not exceed the
analogous test count.  Equality of the canonical k-mer sets alone is not
sufficient for `Ok`. -/
theorem c1_verdict_iff (w k fuel : Nat) (allow : Bool) (refIn testIn : List Nat)
    (res : CompareRes)
    (h : compareKmerSetsF w k fuel false allow refIn testIn = some res) :
    res.verdict = .ok ()
      ↔ res.su = 0 ∧ res.st = 0 ∧ (allow = true ∨ res.uniq ≤ res.testCnt) := by
  unfold compareKmerSetsF at h
  split at h
  case h_2 => exact Option.noConfusion h
  rw [if_neg (by decide : ¬ ((false : Bool) = true))] at h
  simp only [] at h
  repeat' split at h
  all_goals
    first
      | exact Option.noConfusion h
      | (injection h with h
         subst h
         exact verdictOf_ok_iff allow _ _ _ _)

/-- Witness for C1 on a run that returns `Ok` (identical streams `">a\nAAA"`,
`K = 3`): the hypothesis of `c1_verdict_iff` discharged by evaluation, and the
equivalence instantiated at the resulting record. -/
theorem c1_verdict_iff_witness :
    compareKmerSetsF 8 3 64 false false inAAA inAAA
      = some ⟨.ok (), 0, 0, 1, 1⟩
    ∧ ((⟨.ok (), 0, 0, 1, 1⟩ : CompareRes).verdict = .ok ()
        ↔ (⟨.ok (), 0, 0, 1, 1⟩ : CompareRes).su = 0
          ∧ (⟨.ok (), 0, 0, 1, 1⟩ : CompareRes).st = 0
          ∧ ((false : Bool) = true
            ∨ (⟨.ok (), 0, 0, 1, 1⟩ : CompareRes).uniq
              ≤ (⟨.ok (), 0, 0, 1, 1⟩ : CompareRes).testCnt)) :=
  ⟨by decide,
   c1_verdict_iff 8 3 64 false inAAA inAAA ⟨.ok (), 0, 0, 1, 1⟩ (by decide)⟩
